import Mathlib

/-
  Verification of the sage markdown tagger (src/sage/utils.py, src/sage/tagger.py).

  Strings are modelled as `List Char`.  The Python regular expression
  r"\[\[([^\]]+)\]\]" is embedded by an explicit left-to-right scanner
  (`matchTagAt`, `findTags`, `removeTags`, `removeTagsWS`): at each position the
  engine either matches "[[", a nonempty greedy run of characters other than the
  closing bracket, and then two closing brackets, or advances one character.
  The scanners are written with an explicit fuel argument (fuel = length of the
  input suffices) so that they are structural and reduce inside the kernel.
-/

/-- Whitespace characters recognised by Python's str.strip / regex \s (ASCII). -/
def pyWsChar (c : Char) : Bool :=
  c = ' ' || c = '\t' || c = '\n' || c = '\r' || c = Char.ofNat 11 || c = Char.ofNat 12

/-- Python str.lstrip() for ASCII whitespace. -/
def lstripW (s : List Char) : List Char := s.dropWhile pyWsChar

/-- Python str.rstrip() for ASCII whitespace. -/
def rstripW (s : List Char) : List Char := (s.reverse.dropWhile pyWsChar).reverse

/-- Python str.strip() for ASCII whitespace. -/
def pyStrip (s : List Char) : List Char := rstripW (lstripW s)

/-- Python s.split("\n"): every newline separates fields, empty fields kept. -/
def splitNl : List Char → List (List Char)
  | [] => [[]]
  | c :: cs =>
    if c = '\n' then [] :: splitNl cs
    else (c :: (splitNl cs).headI) :: (splitNl cs).tail

/-- Python "\n".join(lines). -/
def joinNl : List (List Char) → List Char
  | [] => []
  | [l] => l
  | l :: ls => l ++ '\n' :: joinNl ls

/-- One attempt of the regex r"\[\[([^\]]+)\]\]" anchored at the head of `s`:
two opening brackets, a nonempty greedy run of characters other than ']'
(the capture group), then two closing brackets.  Returns the captured inner
text and the remainder after the match. -/
def matchTagAt : List Char → Option (List Char × List Char)
  | c1 :: c2 :: rest =>
    if c1 = '[' ∧ c2 = '[' ∧ rest.takeWhile (fun c => c ≠ ']') ≠ [] ∧
        (rest.dropWhile (fun c => c ≠ ']')).take 2 = [']', ']'] then
      some (rest.takeWhile (fun c => c ≠ ']'), (rest.dropWhile (fun c => c ≠ ']')).drop 2)
    else none
  | _ => none

/-- Fueled form of Python re.findall(r"\[\[([^\]]+)\]\]", s): scan left to
right; on a match emit the capture and resume after the match, otherwise
advance one character. -/
def findTagsF : Nat → List Char → List (List Char)
  | 0, _ => []
  | _ + 1, [] => []
  | fuel + 1, c :: cs =>
    match matchTagAt (c :: cs) with
    | some (inner, rest) => inner :: findTagsF fuel rest
    | none => findTagsF fuel cs

/-- Python re.findall(r"\[\[([^\]]+)\]\]", s). -/
def findTags (s : List Char) : List (List Char) := findTagsF s.length s

/-- Fueled form of re.sub(r"\[\[([^\]]+)\]\]", "", s): matched spans are
dropped, unmatched characters kept. -/
def removeTagsF : Nat → List Char → List Char
  | 0, s => s
  | _ + 1, [] => []
  | fuel + 1, c :: cs =>
    match matchTagAt (c :: cs) with
    | some (_, rest) => removeTagsF fuel rest
    | none => c :: removeTagsF fuel cs

/-- Python re.sub(r"\[\[([^\]]+)\]\]", "", s). -/
def removeTags (s : List Char) : List Char := removeTagsF s.length s

/-- Fueled form of re.sub(r"\[\[([^\]]+)\]\]\s*\n?", "", s).  The greedy \s*
consumes the maximal whitespace run following the tag (newlines included), after
which \n? can only match the empty string; so each match removes the tag and
all immediately following whitespace. -/
def removeTagsWsF : Nat → List Char → List Char
  | 0, s => s
  | _ + 1, [] => []
  | fuel + 1, c :: cs =>
    match matchTagAt (c :: cs) with
    | some (_, rest) => removeTagsWsF fuel (rest.dropWhile pyWsChar)
    | none => c :: removeTagsWsF fuel cs

/-- Python re.sub(r"\[\[([^\]]+)\]\]\s*\n?", "", s). -/
def removeTagsWS (s : List Char) : List Char := removeTagsWsF s.length s

/-- The reserved tag marker. -/
def claudeTag : List Char := "claude".toList

/-- The characters admitted by the final pattern r"^[a-z0-9-]+$": lowercase
ASCII letters, digits and the hyphen, listed explicitly. -/
def tagChars : List Char := "abcdefghijklmnopqrstuvwxyz0123456789-".toList

def isTagChar (c : Char) : Bool := tagChars.contains c

/-- Python re.match(r"^[a-z0-9-]+$", t): in Python the anchor $ matches at the
end of the string or just before one trailing newline, so the pattern accepts a
nonempty body of tag characters optionally followed by one final newline. -/
def pyFullMatchTag (t : List Char) : Bool :=
  (if t.getLast? = some '\n' then t.dropLast else t) ≠ [] &&
    (if t.getLast? = some '\n' then t.dropLast else t).all isTagChar

/-- The characters rejected as command-like by validate_tags
(src/sage/utils.py line 47). -/
def pyForbidden : List Char :=
  ['$', '"', Char.ofNat 39, '(', ')', ';', '|', '&', '=', '*', '!', '?']

/-- Python str.lower on one ASCII character. -/
def pyLower (c : Char) : Char :=
  if 'A' ≤ c ∧ c ≤ 'Z' then Char.ofNat (c.toNat + 32) else c

/-- The classification loop of validate_tags (src/sage/utils.py lines 36-68):
each candidate extracted from the window is appended to valid_tags or
invalid_tags following the branch chain of the source. -/
def classifyTags : List (List Char) → List (List Char) × List (List Char)
  | [] => ([], [])
  | t :: ts =>
    let r := classifyTags ts
    if t = claudeTag then (t :: r.1, r.2)
    else if t.any (fun c => pyForbidden.contains c) then (r.1, t :: r.2)
    else if t.contains ' ' then (r.1, t :: r.2)
    else if ¬ t = t.map pyLower then (r.1, t :: r.2)
    else if ¬ pyFullMatchTag t = true then (r.1, t :: r.2)
    else (t :: r.1, r.2)

/-- Python line.strip().startswith("```"): is this line a code fence marker? -/
def isFenceLine (l : List Char) : Bool := "```".toList.isPrefixOf (pyStrip l)

/-- The loop of validate_tags over last_lines (src/sage/utils.py lines 22-30):
a fence line toggles the in_code_block state and is dropped, lines inside an
open fence are dropped, the rest are kept. -/
def filterCodeBlocks : Bool → List (List Char) → List (List Char)
  | _, [] => []
  | inCode, l :: ls =>
    if isFenceLine l then filterCodeBlocks (!inCode) ls
    else if inCode then filterCodeBlocks inCode ls
    else l :: filterCodeBlocks inCode ls

/-- The last-20-lines window of validate_tags (src/sage/utils.py lines 18-19). -/
def windowLines (s : List Char) : List (List Char) :=
  if (splitNl s).length > 20 then (splitNl s).drop ((splitNl s).length - 20)
  else splitNl s

/-- The window lines that survive code-block filtering. -/
def keptLines (s : List Char) : List (List Char) :=
  filterCodeBlocks false (windowLines s)

/-- The candidate tags extracted from the filtered trailing window
(re.findall over "\n".join(filtered_lines)). -/
def windowTags (s : List Char) : List (List Char) :=
  findTags (joinNl (keptLines s))

/-- validate_tags (src/sage/utils.py lines 7-70). -/
def validate_tags (s : List Char) : List (List Char) × List (List Char) :=
  classifyTags (windowTags s)

/-- verify_content_unchanged (src/sage/utils.py lines 73-88): strip all tags
from both versions, trim surrounding whitespace, compare for equality. -/
def verify_content_unchanged (original_content updated_content : List Char) : Bool :=
  pyStrip (removeTags original_content) == pyStrip (removeTags updated_content)

/-- check_already_tagged (src/sage/tagger.py lines 41-57) applied to the file
content: all whole-document tags except the reserved claude marker. -/
def check_already_tagged (content : List Char) : Bool × List (List Char) :=
  (decide ((findTags content).filter (fun t => t ≠ claudeTag) ≠ []),
    (findTags content).filter (fun t => t ≠ claudeTag))

/-- Python f-string "[[{tag}]]". -/
def wrapTag (t : List Char) : List Char := '[' :: '[' :: (t ++ [']', ']'])

/-- The pure rewrite step of _cleanup_invalid_tags (src/sage/tagger.py lines
141-160): remove all tags together with trailing whitespace, rstrip, then
append a blank line and the valid tags one per line when there are any. -/
def cleanup_invalid_tags (content : List Char) (valid_tags : List (List Char)) : List Char :=
  if valid_tags ≠ [] then
    rstripW (removeTagsWS content) ++ '\n' :: '\n' :: joinNl (valid_tags.map wrapTag)
  else rstripW (removeTagsWS content)

/-- Written from claim C6: the reserved tag claude is always valid; a tag
containing a forbidden character or a space, or differing from its own
lowercase form, or failing re.match(r"^[a-z0-9-]+$", tag) under Python's
semantics of the $ anchor, is invalid; every other tag is valid. -/
def specValidTag (t : List Char) : Bool :=
  t == claudeTag ||
    (!(t.any (fun c => pyForbidden.contains c)) && !(t.contains ' ') &&
      (t == t.map pyLower) && pyFullMatchTag t)

/-- Fueled scanner written from claim C7 as stated: remove every tag occurrence
together with an immediately trailing newline if present, and nothing more of
the surrounding text. -/
def claimRemoveNlF : Nat → List Char → List Char
  | 0, s => s
  | _ + 1, [] => []
  | fuel + 1, c :: cs =>
    match matchTagAt (c :: cs) with
    | some (_, '\n' :: rest2) => claimRemoveNlF fuel rest2
    | some (_, rest) => claimRemoveNlF fuel rest
    | none => c :: claimRemoveNlF fuel cs

def claimRemoveNl (s : List Char) : List Char := claimRemoveNlF s.length s

/-- Document Repair as described by claim C7 verbatim: remove each tag plus at
most one trailing newline, trim trailing whitespace, then append the tag block
when the valid-tag list is nonempty. -/
def claimCleanupC7 (content : List Char) (valid_tags : List (List Char)) : List Char :=
  if valid_tags ≠ [] then
    rstripW (claimRemoveNl content) ++ '\n' :: '\n' :: joinNl (valid_tags.map wrapTag)
  else rstripW (claimRemoveNl content)

/-- The error messages produced by process_file (src/sage/tagger.py), one
constructor per format string:
claudeError e for "Claude error: {e}",
verificationFailed for "Content verification failed - restored original",
cleaned n for "Cleaned {n} invalid tags",
timeoutAfter n for "Timeout after {n} attempts",
errorAfterRetry e for "Error after retry: {e}". -/
inductive ErrMsg where
  | claudeError (stderrText : List Char)
  | verificationFailed
  | cleaned (count : Nat)
  | timeoutAfter (attempts : Nat)
  | errorAfterRetry (e : List Char)
deriving DecidableEq

/-- What the external world does during one attempt of process_file:
the invocation times out (the file is left holding `after`), some step raises
a non-timeout exception whose text is `msg` (`invoked` records whether the
external invocation had been started), or the invocation completes with the
given returncode and stderr, leaving the file holding `after`. -/
inductive AttemptEvent where
  | timeout (after : List Char)
  | exc (invoked : Bool) (msg : List Char) (after : List Char)
  | ret (returncode : Int) (stderrText : List Char) (after : List Char)

/-- Observable outcome of process_file: the returned triple (success, error
message, tags) together with the final file content, the sleeps performed (in
order, in the units of asyncio.sleep) and how many external invocations were
started. -/
structure ProcResult where
  success : Bool
  err : Option ErrMsg
  tags : List (List Char)
  file : List Char
  sleeps : List Nat
  invocations : Nat
deriving DecidableEq

/-- process_file (src/sage/tagger.py lines 59-139).  The file initially holds
`fileContent`; `env retry_count` says how the attempt with that retry counter
unfolds.  Each attempt re-reads the file, short-circuits when a non-reserved
tag exists and force is false, and otherwise invokes the external tool; a
timeout retries the whole protocol (sleep 2) while retry_count < 2, any other
exception retries it (sleep 1) while retry_count < 1, a nonzero exit fails at
once, a failed integrity check restores the original content and fails, and
invalid tags trigger the cleanup rewrite. -/
def process_file (env : Nat → AttemptEvent) (force : Bool) (fileContent : List Char)
    (retry_count : Nat) : ProcResult :=
  if (check_already_tagged fileContent).1 && !force then
    ⟨true, none, (check_already_tagged fileContent).2, fileContent, [], 0⟩
  else
    match env retry_count with
    | .timeout after =>
      if h : retry_count < 2 then
        let r := process_file env force after (retry_count + 1)
        ⟨r.success, r.err, r.tags, r.file, 2 :: r.sleeps, r.invocations + 1⟩
      else ⟨false, some (.timeoutAfter (retry_count + 1)), [], after, [], 1⟩
    | .exc invoked msg after =>
      if h : retry_count < 1 then
        let r := process_file env force after (retry_count + 1)
        ⟨r.success, r.err, r.tags, r.file, 1 :: r.sleeps,
          r.invocations + (if invoked then 1 else 0)⟩
      else ⟨false, some (.errorAfterRetry msg), [], after, [], if invoked then 1 else 0⟩
    | .ret returncode stderrText after =>
      if returncode ≠ 0 then ⟨false, some (.claudeError stderrText), [], after, [], 1⟩
      else if !(verify_content_unchanged fileContent after) then
        ⟨false, some .verificationFailed, [], fileContent, [], 1⟩
      else if (validate_tags after).2 ≠ [] then
        ⟨true, some (.cleaned (validate_tags after).2.length), (validate_tags after).1,
          cleanup_invalid_tags after (validate_tags after).1, [], 1⟩
      else ⟨true, none, (validate_tags after).1, after, [], 1⟩
termination_by 3 - retry_count
decreasing_by
  all_goals omega

/-- Outcome of one gathered task in process_files: either the task raised
(asyncio.gather with return_exceptions=True hands the exception back) or it
returned a ProcResult. -/
inductive TaskOutcome where
  | raised (msg : List Char)
  | completed (r : ProcResult)

/-- Error text paired with a failed path by process_files: str(exception) for a
raised task, the run's message otherwise, with a missing message replaced by
"Unknown error". -/
inductive BatchMsg where
  | fromRun (e : ErrMsg)
  | unknownError
  | raisedText (msg : List Char)
deriving DecidableEq

/-- Python "error_msg or \"Unknown error\"" (None is falsy, every produced
message is a nonempty string). -/
def orUnknown : Option ErrMsg → BatchMsg
  | some m => BatchMsg.fromRun m
  | none => BatchMsg.unknownError

/-- The aggregation loop of process_files (src/sage/tagger.py lines 188-202)
over the (path, outcome) pairs.  asyncio.gather returns the per-task results
aligned with the order the tasks were passed in, so the loop walks the pairs in
input order regardless of the order in which tasks completed. -/
def aggregateResults : List (List Char × TaskOutcome) →
    Nat × Nat × List (List Char × BatchMsg)
  | [] => (0, 0, [])
  | (p, o) :: rest =>
    let r := aggregateResults rest
    match o with
    | .raised m => (r.1, r.2.1 + 1, (p, .raisedText m) :: r.2.2)
    | .completed pr =>
      if pr.success then (r.1 + 1, r.2.1, r.2.2)
      else (r.1, r.2.1 + 1, (p, orUnknown pr.err) :: r.2.2)

/-- process_files (src/sage/tagger.py lines 162-203): the outcomes are the
gathered per-task results, listed in the same order as the input paths. -/
def process_files (paths : List (List Char)) (outcomes : List TaskOutcome) :
    Nat × Nat × List (List Char × BatchMsg) :=
  aggregateResults (paths.zip outcomes)

/-- Written from claim C4: the error message paired with a path when its task
failed, none when the task succeeded. -/
def outcomeFailMsg : TaskOutcome → Option BatchMsg
  | .raised m => some (.raisedText m)
  | .completed pr => if pr.success then none else some (orUnknown pr.err)

/-- Did this gathered outcome count as a success? -/
def isSuccessOutcome : TaskOutcome → Bool
  | .raised _ => false
  | .completed pr => pr.success

/-- Written from claim C4: walking the (path, outcome) pairs in input order,
pair each failed path with its error message. -/
def specFailEntries : List (List Char × TaskOutcome) → List (List Char × BatchMsg)
  | [] => []
  | (p, o) :: rest =>
    ((outcomeFailMsg o).map (fun m => (p, m))).toList ++ specFailEntries rest

/-- Written from claim C4: the number of succeeding pairs, in input order. -/
def specSuccessCount : List (List Char × TaskOutcome) → Nat
  | [] => 0
  | (_, o) :: rest => (if isSuccessOutcome o then 1 else 0) + specSuccessCount rest

theorem takeWhile_append_stop {p : Char → Bool} {l : List Char} (r : List Char)
    (hl : ∀ c ∈ l, p c = true) {x : Char} (hx : p x = false) :
    (l ++ x :: r).takeWhile p = l := by
  induction l with
  | nil => simp [List.takeWhile_cons, hx]
  | cons a l ih =>
    have ha : p a = true := hl a (by simp)
    simp only [List.cons_append, List.takeWhile_cons, ha, if_true]
    rw [ih (fun c hc => hl c (by simp [hc]))]

theorem dropWhile_append_stop {p : Char → Bool} {l : List Char} (r : List Char)
    (hl : ∀ c ∈ l, p c = true) {x : Char} (hx : p x = false) :
    (l ++ x :: r).dropWhile p = x :: r := by
  induction l with
  | nil => simp [List.dropWhile_cons, hx]
  | cons a l ih =>
    have ha : p a = true := hl a (by simp)
    simp only [List.cons_append, List.dropWhile_cons, ha, if_true]
    exact ih (fun c hc => hl c (by simp [hc]))

theorem matchTagAt_structure {s inner rest : List Char}
    (h : matchTagAt s = some (inner, rest)) :
    s = '[' :: '[' :: (inner ++ ']' :: ']' :: rest) ∧ inner ≠ [] ∧
      ∀ c ∈ inner, c ≠ ']' := by
  rcases s with _ | ⟨c1, _ | ⟨c2, r⟩⟩
  · simp [matchTagAt] at h
  · simp [matchTagAt] at h
  · simp only [matchTagAt] at h
    split at h
    · next hcond =>
      obtain ⟨hb1, hb2, hne, htk⟩ := hcond
      injection h with h'
      have hinner : r.takeWhile (fun c => c ≠ ']') = inner := congrArg Prod.fst h'
      have hrest : (r.dropWhile (fun c => c ≠ ']')).drop 2 = rest := congrArg Prod.snd h'
      subst hb1; subst hb2
      have hdw : r.dropWhile (fun c => c ≠ ']') = ']' :: ']' :: rest := by
        have htd := List.take_append_drop 2 (r.dropWhile (fun c => c ≠ ']'))
        rw [htk, hrest] at htd
        exact htd.symm
      refine ⟨?_, ?_, ?_⟩
      · have hsplit := List.takeWhile_append_dropWhile (fun c => decide (c ≠ ']')) r
        rw [hinner, hdw] at hsplit
        rw [← hsplit]
      · rw [← hinner]; exact hne
      · intro c hc
        rw [← hinner] at hc
        simpa using List.mem_takeWhile_imp hc
    · exact absurd h (by simp)

theorem matchTagAt_length {s inner rest : List Char}
    (h : matchTagAt s = some (inner, rest)) : rest.length < s.length := by
  obtain ⟨hs, hne, -⟩ := matchTagAt_structure h
  rw [hs]
  simp only [List.length_cons, List.length_append]
  omega

theorem matchTagAt_cons_not_bracket {c : Char} {cs : List Char} (h : c ≠ '[') :
    matchTagAt (c :: cs) = none := by
  rcases cs with _ | ⟨c2, r⟩
  · rfl
  · simp only [matchTagAt]
    split
    · next hcond => exact absurd hcond.1 h
    · rfl

theorem matchTagAt_wrap {inner : List Char} (rest : List Char) (h1 : inner ≠ [])
    (h2 : ∀ c ∈ inner, c ≠ ']') :
    matchTagAt ('[' :: '[' :: (inner ++ ']' :: ']' :: rest)) = some (inner, rest) := by
  have hp : ∀ c ∈ inner, (fun c => decide (c ≠ ']')) c = true := by
    intro c hc; simpa using h2 c hc
  have hx : (fun c => decide (c ≠ ']')) ']' = false := by simp
  have htake : (inner ++ ']' :: ']' :: rest).takeWhile (fun c => c ≠ ']') = inner :=
    takeWhile_append_stop (']' :: rest) hp hx
  have hdrop : (inner ++ ']' :: ']' :: rest).dropWhile (fun c => c ≠ ']') =
      ']' :: ']' :: rest :=
    dropWhile_append_stop (']' :: rest) hp hx
  simp only [matchTagAt, htake, hdrop]
  simp [h1]



theorem findTagsF_succ {fuel : Nat} : ∀ {s : List Char}, s.length ≤ fuel →
    findTagsF (fuel + 1) s = findTagsF fuel s := by
  induction fuel with
  | zero =>
    intro s h
    have : s = [] := List.eq_nil_of_length_eq_zero (Nat.le_zero.mp h)
    subst this; rfl
  | succ g ih =>
    intro s h
    match s with
    | [] => rfl
    | c :: cs =>
      simp only [List.length_cons] at h
      show findTagsF (g + 1 + 1) (c :: cs) = findTagsF (g + 1) (c :: cs)
      cases hm : matchTagAt (c :: cs) with
      | some p =>
        obtain ⟨i, r⟩ := p
        have hr : r.length ≤ g := by
          have := matchTagAt_length hm
          simp only [List.length_cons] at this
          omega
        simp only [findTagsF, hm]
        rw [ih hr]
      | none =>
        simp only [findTagsF, hm]
        exact ih (by omega)

theorem findTagsF_add {k : Nat} : ∀ {fuel : Nat} {s : List Char}, s.length ≤ fuel →
    findTagsF (fuel + k) s = findTagsF fuel s := by
  induction k with
  | zero => intro fuel s _; rfl
  | succ k ih =>
    intro fuel s h
    show findTagsF (fuel + k + 1) s = findTagsF fuel s
    rw [findTagsF_succ (Nat.le_trans h (Nat.le_add_right fuel k)), ih h]

theorem findTagsF_eq {fuel : Nat} {s : List Char} (h : s.length ≤ fuel) :
    findTagsF fuel s = findTags s := by
  unfold findTags
  have hk : fuel = s.length + (fuel - s.length) := by omega
  rw [hk]
  exact findTagsF_add (Nat.le_refl _)

theorem findTags_cons_some {c : Char} {cs inner rest : List Char}
    (h : matchTagAt (c :: cs) = some (inner, rest)) :
    findTags (c :: cs) = inner :: findTags rest := by
  have hlen := matchTagAt_length h
  simp only [List.length_cons] at hlen
  show findTagsF (c :: cs).length (c :: cs) = _
  simp only [List.length_cons, findTagsF, h]
  rw [findTagsF_eq (by omega)]

theorem findTags_cons_none {c : Char} {cs : List Char}
    (h : matchTagAt (c :: cs) = none) :
    findTags (c :: cs) = findTags cs := by
  show findTagsF (c :: cs).length (c :: cs) = _
  simp only [List.length_cons, findTagsF, h]
  rfl

theorem findTags_nil : findTags [] = [] := rfl

theorem removeTagsF_succ {fuel : Nat} : ∀ {s : List Char}, s.length ≤ fuel →
    removeTagsF (fuel + 1) s = removeTagsF fuel s := by
  induction fuel with
  | zero =>
    intro s h
    have : s = [] := List.eq_nil_of_length_eq_zero (Nat.le_zero.mp h)
    subst this; rfl
  | succ g ih =>
    intro s h
    match s with
    | [] => rfl
    | c :: cs =>
      simp only [List.length_cons] at h
      show removeTagsF (g + 1 + 1) (c :: cs) = removeTagsF (g + 1) (c :: cs)
      cases hm : matchTagAt (c :: cs) with
      | some p =>
        obtain ⟨i, r⟩ := p
        have hr : r.length ≤ g := by
          have := matchTagAt_length hm
          simp only [List.length_cons] at this
          omega
        simp only [removeTagsF, hm]
        rw [ih hr]
      | none =>
        simp only [removeTagsF, hm]
        rw [ih (by omega)]

theorem removeTagsF_add {k : Nat} : ∀ {fuel : Nat} {s : List Char}, s.length ≤ fuel →
    removeTagsF (fuel + k) s = removeTagsF fuel s := by
  induction k with
  | zero => intro fuel s _; rfl
  | succ k ih =>
    intro fuel s h
    show removeTagsF (fuel + k + 1) s = removeTagsF fuel s
    rw [removeTagsF_succ (Nat.le_trans h (Nat.le_add_right fuel k)), ih h]

theorem removeTagsF_eq {fuel : Nat} {s : List Char} (h : s.length ≤ fuel) :
    removeTagsF fuel s = removeTags s := by
  unfold removeTags
  have hk : fuel = s.length + (fuel - s.length) := by omega
  rw [hk]
  exact removeTagsF_add (Nat.le_refl _)

theorem removeTags_cons_some {c : Char} {cs inner rest : List Char}
    (h : matchTagAt (c :: cs) = some (inner, rest)) :
    removeTags (c :: cs) = removeTags rest := by
  have hlen := matchTagAt_length h
  simp only [List.length_cons] at hlen
  show removeTagsF (c :: cs).length (c :: cs) = _
  simp only [List.length_cons, removeTagsF, h]
  rw [removeTagsF_eq (by omega)]

theorem removeTags_cons_none {c : Char} {cs : List Char}
    (h : matchTagAt (c :: cs) = none) :
    removeTags (c :: cs) = c :: removeTags cs := by
  show removeTagsF (c :: cs).length (c :: cs) = _
  simp only [List.length_cons, removeTagsF, h]
  rfl

theorem removeTagsWsF_succ {fuel : Nat} : ∀ {s : List Char}, s.length ≤ fuel →
    removeTagsWsF (fuel + 1) s = removeTagsWsF fuel s := by
  induction fuel with
  | zero =>
    intro s h
    have : s = [] := List.eq_nil_of_length_eq_zero (Nat.le_zero.mp h)
    subst this; rfl
  | succ g ih =>
    intro s h
    match s with
    | [] => rfl
    | c :: cs =>
      simp only [List.length_cons] at h
      show removeTagsWsF (g + 1 + 1) (c :: cs) = removeTagsWsF (g + 1) (c :: cs)
      cases hm : matchTagAt (c :: cs) with
      | some p =>
        obtain ⟨i, r⟩ := p
        have hr : (r.dropWhile pyWsChar).length ≤ g := by
          have h1 := matchTagAt_length hm
          have h2 : (r.dropWhile pyWsChar).length ≤ r.length :=
            (List.dropWhile_sublist pyWsChar).length_le
          simp only [List.length_cons] at h1
          omega
        simp only [removeTagsWsF, hm]
        rw [ih hr]
      | none =>
        simp only [removeTagsWsF, hm]
        rw [ih (by omega)]

theorem removeTagsWsF_add {k : Nat} : ∀ {fuel : Nat} {s : List Char}, s.length ≤ fuel →
    removeTagsWsF (fuel + k) s = removeTagsWsF fuel s := by
  induction k with
  | zero => intro fuel s _; rfl
  | succ k ih =>
    intro fuel s h
    show removeTagsWsF (fuel + k + 1) s = removeTagsWsF fuel s
    rw [removeTagsWsF_succ (Nat.le_trans h (Nat.le_add_right fuel k)), ih h]

theorem removeTagsWsF_eq {fuel : Nat} {s : List Char} (h : s.length ≤ fuel) :
    removeTagsWsF fuel s = removeTagsWS s := by
  unfold removeTagsWS
  have hk : fuel = s.length + (fuel - s.length) := by omega
  rw [hk]
  exact removeTagsWsF_add (Nat.le_refl _)

theorem removeTagsWS_cons_some {c : Char} {cs inner rest : List Char}
    (h : matchTagAt (c :: cs) = some (inner, rest)) :
    removeTagsWS (c :: cs) = removeTagsWS (rest.dropWhile pyWsChar) := by
  have hlen := matchTagAt_length h
  have hd : (rest.dropWhile pyWsChar).length ≤ rest.length :=
    (List.dropWhile_sublist pyWsChar).length_le
  simp only [List.length_cons] at hlen
  show removeTagsWsF (c :: cs).length (c :: cs) = _
  simp only [List.length_cons, removeTagsWsF, h]
  rw [removeTagsWsF_eq (by omega)]

theorem removeTagsWS_cons_none {c : Char} {cs : List Char}
    (h : matchTagAt (c :: cs) = none) :
    removeTagsWS (c :: cs) = c :: removeTagsWS cs := by
  show removeTagsWsF (c :: cs).length (c :: cs) = _
  simp only [List.length_cons, removeTagsWsF, h]
  rfl

theorem classifyTags_cons (t : List Char) (ts : List (List Char)) :
    classifyTags (t :: ts) =
      if specValidTag t then (t :: (classifyTags ts).1, (classifyTags ts).2)
      else ((classifyTags ts).1, t :: (classifyTags ts).2) := by
  simp only [classifyTags]
  by_cases h1 : t = claudeTag
  · have hs : specValidTag t = true := by
      have hb : (t == claudeTag) = true := beq_iff_eq.mpr h1
      unfold specValidTag
      rw [hb, Bool.true_or]
    rw [if_pos h1, hs]
    simp
  · have hbeq : (t == claudeTag) = false := beq_eq_false_iff_ne.mpr h1
    rw [if_neg h1]
    by_cases h2 : t.any (fun c => pyForbidden.contains c) = true
    · have hs : specValidTag t = false := by
        unfold specValidTag
        rw [hbeq, h2]
        simp
      rw [if_pos h2, hs]
      simp
    · have h2f : t.any (fun c => pyForbidden.contains c) = false := by simpa using h2
      rw [if_neg h2]
      by_cases h3 : t.contains ' ' = true
      · have hs : specValidTag t = false := by
          unfold specValidTag
          rw [hbeq, h2f, h3]
          simp
        rw [if_pos h3, hs]
        simp
      · have h3f : t.contains ' ' = false := by simpa using h3
        rw [if_neg h3]
        by_cases h4 : t = t.map pyLower
        · have h4b : (t == t.map pyLower) = true := beq_iff_eq.mpr h4
          by_cases h5 : pyFullMatchTag t = true
          · have hs : specValidTag t = true := by
              unfold specValidTag
              rw [hbeq, h2f, h3f, h4b, h5]
              simp
            rw [if_neg (fun hc => hc h4), if_neg (fun hc => hc h5), hs]
            simp
          · have h5f : pyFullMatchTag t = false := by simpa using h5
            have hs : specValidTag t = false := by
              unfold specValidTag
              rw [hbeq, h2f, h3f, h4b, h5f]
              simp
            rw [if_neg (fun hc => hc h4), if_pos h5, hs]
            simp
        · have h4b : (t == t.map pyLower) = false := beq_eq_false_iff_ne.mpr h4
          have hs : specValidTag t = false := by
            unfold specValidTag
            rw [hbeq, h2f, h3f, h4b]
            simp
          rw [if_pos h4, hs]
          simp

theorem classifyTags_eq_filter (ts : List (List Char)) :
    classifyTags ts =
      (ts.filter specValidTag, ts.filter (fun t => !(specValidTag t))) := by
  induction ts with
  | nil => rfl
  | cons t ts ih =>
    rw [classifyTags_cons, ih]
    by_cases h : specValidTag t = true
    · simp [h, List.filter_cons]
    · have hf : specValidTag t = false := by simpa using h
      simp [hf, List.filter_cons]

theorem prefix_append_nl {w A B : List Char} (hnl : '\n' ∉ w)
    (h : w <+: A ++ '\n' :: B) : w <+: A := by
  induction A generalizing w with
  | nil =>
    match w with
    | [] => exact List.nil_prefix
    | c :: w' =>
      obtain ⟨u, hu⟩ := h
      simp only [List.nil_append, List.cons_append] at hu
      injection hu with h1 h2
      exact absurd (h1 ▸ List.mem_cons_self c w') hnl
  | cons a A ih =>
    match w with
    | [] => exact List.nil_prefix
    | c :: w' =>
      rw [List.cons_append] at h
      obtain ⟨hca, hw'⟩ := List.cons_prefix_cons.mp h
      have hw'' : w' <+: A := ih (fun hm => hnl (List.mem_cons_of_mem c hm)) hw'
      obtain ⟨u, hu⟩ := hw''
      exact ⟨u, by rw [hca, List.cons_append, hu]⟩

theorem infix_append_nl {w A B : List Char} (hnl : '\n' ∉ w)
    (h : w <:+: A ++ '\n' :: B) : w <:+: A ∨ w <:+: B := by
  induction A with
  | nil =>
    rw [List.nil_append] at h
    rcases List.infix_cons_iff.mp h with hp | hi
    · match w with
      | [] => exact Or.inl (List.nil_prefix).isInfix
      | c :: w' =>
        obtain ⟨hca, -⟩ := List.cons_prefix_cons.mp hp
        exact absurd (hca ▸ List.mem_cons_self c w') hnl
    · exact Or.inr hi
  | cons a A ih =>
    rw [List.cons_append] at h
    rcases List.infix_cons_iff.mp h with hp | hi
    · exact Or.inl (prefix_append_nl hnl (by rwa [List.cons_append])).isInfix
    · rcases ih hi with h1 | h2
      · exact Or.inl (h1.trans (List.suffix_cons a A).isInfix)
      · exact Or.inr h2

theorem joinNl_cons_of_ne_nil {l : List Char} {ls : List (List Char)}
    (h : ls ≠ []) : joinNl (l :: ls) = l ++ '\n' :: joinNl ls := by
  match ls with
  | [] => exact absurd rfl h
  | l2 :: ls2 => rfl

theorem infix_joinNl {w : List Char} {L : List (List Char)} (hw : w ≠ [])
    (hnl : '\n' ∉ w) (h : w <:+: joinNl L) : ∃ l ∈ L, w <:+: l := by
  induction L with
  | nil =>
    exact absurd (List.infix_nil.mp h) hw
  | cons l ls ih =>
    match ls with
    | [] => exact ⟨l, by simp, by simpa [joinNl] using h⟩
    | l2 :: ls2 =>
      rw [joinNl_cons_of_ne_nil (by simp)] at h
      rcases infix_append_nl hnl h with h1 | h2
      · exact ⟨l, by simp, h1⟩
      · obtain ⟨m, hm, hmi⟩ := ih h2
        exact ⟨m, by simp [hm], hmi⟩

theorem infix_of_mem_findTags_aux :
    ∀ (n : Nat) (s t : List Char), s.length ≤ n → t ∈ findTags s →
      wrapTag t <:+: s := by
  intro n
  induction n with
  | zero =>
    intro s t hlen h
    have hs : s = [] := List.eq_nil_of_length_eq_zero (Nat.le_zero.mp hlen)
    subst hs
    simp [findTags_nil] at h
  | succ n ih =>
    intro s t hlen h
    match s with
    | [] => simp [findTags_nil] at h
    | c :: cs =>
      simp only [List.length_cons] at hlen
      cases hm : matchTagAt (c :: cs) with
      | some p =>
        obtain ⟨i, r⟩ := p
        rw [findTags_cons_some hm] at h
        obtain ⟨hs, hne, hmem⟩ := matchTagAt_structure hm
        have hrlen : r.length ≤ n := by
          have := matchTagAt_length hm
          simp only [List.length_cons] at this
          omega
        rcases List.mem_cons.mp h with h | h
        · subst h
          refine ⟨[], r, ?_⟩
          rw [hs]
          simp [wrapTag]
        · have hr : wrapTag t <:+: r := ih r t hrlen h
          have hsuf : r <:+ (c :: cs) := ⟨wrapTag i, by rw [hs]; simp [wrapTag]⟩
          exact hr.trans hsuf.isInfix
      | none =>
        rw [findTags_cons_none hm] at h
        have := ih cs t (by omega) h
        exact this.trans (List.suffix_cons c cs).isInfix

theorem infix_of_mem_findTags {s t : List Char} (h : t ∈ findTags s) :
    wrapTag t <:+: s :=
  infix_of_mem_findTags_aux s.length s t (Nat.le_refl _) h

/-- C6: validate_tags classifies each candidate extracted from the trailing
window as follows: the literal tag claude is always valid; a candidate
containing one of the forbidden characters, or a space, or differing from its
own lowercase form, or not matching the Python regex r"^[a-z0-9-]+$", is
invalid; every other candidate is valid (the two output lists are the two
filters of the extracted candidates under this predicate); and a tag whose
token [[t]] occurs on none of the kept window lines, in particular a tag
appearing only inside a fenced code block within the window, appears in
neither output list. -/
theorem c6_validator_classification (s : List Char) :
    (validate_tags s).1 = (windowTags s).filter specValidTag ∧
    (validate_tags s).2 = (windowTags s).filter (fun t => !(specValidTag t)) ∧
    ∀ t : List Char, '\n' ∉ t →
      (∀ l ∈ keptLines s, ¬ (wrapTag t <:+: l)) →
      t ∉ (validate_tags s).1 ∧ t ∉ (validate_tags s).2 := by
  refine ⟨?_, ?_, ?_⟩
  · show (classifyTags (windowTags s)).1 = _
    rw [classifyTags_eq_filter]
  · show (classifyTags (windowTags s)).2 = _
    rw [classifyTags_eq_filter]
  · intro t hnl hocc
    have hnotmem : t ∉ windowTags s := by
      intro hm
      have hinf : wrapTag t <:+: joinNl (keptLines s) := infix_of_mem_findTags hm
      have hw : wrapTag t ≠ [] := by simp [wrapTag]
      have hwnl : '\n' ∉ wrapTag t := by
        intro hm
        simp only [wrapTag, List.mem_cons, List.mem_append] at hm
        rcases hm with h | h | h
        · exact absurd h (by decide)
        · exact absurd h (by decide)
        · rcases h with h | h
          · exact hnl h
          · exact absurd h (by decide)
      obtain ⟨l, hl, hli⟩ := infix_joinNl hw hwnl hinf
      exact hocc l hl hli
    constructor
    · intro hv
      show False
      have : t ∈ windowTags s := by
        have h1 : (validate_tags s).1 = (windowTags s).filter specValidTag := by
          show (classifyTags (windowTags s)).1 = _
          rw [classifyTags_eq_filter]
        rw [h1] at hv
        exact List.mem_of_mem_filter hv
      exact hnotmem this
    · intro hv
      show False
      have : t ∈ windowTags s := by
        have h2 : (validate_tags s).2 =
            (windowTags s).filter (fun t => !(specValidTag t)) := by
          show (classifyTags (windowTags s)).2 = _
          rw [classifyTags_eq_filter]
        rw [h2] at hv
        exact List.mem_of_mem_filter hv
      exact hnotmem this

theorem findTags_append_no_bracket {A B : List Char} (hA : '[' ∉ A) :
    findTags (A ++ B) = findTags B := by
  induction A with
  | nil => rfl
  | cons a A ih =>
    have ha : a ≠ '[' := fun h => hA (h ▸ List.mem_cons_self a A)
    rw [List.cons_append, findTags_cons_none (matchTagAt_cons_not_bracket ha)]
    exact ih (fun h => hA (List.mem_cons_of_mem a h))

theorem findTags_no_bracket {s : List Char} (h : '[' ∉ s) : findTags s = [] := by
  induction s with
  | nil => rfl
  | cons a s ih =>
    have ha : a ≠ '[' := fun hh => h (hh ▸ List.mem_cons_self a s)
    rw [findTags_cons_none (matchTagAt_cons_not_bracket ha)]
    exact ih (fun hm => h (List.mem_cons_of_mem a hm))

theorem removeTags_append_no_bracket {A B : List Char} (hA : '[' ∉ A) :
    removeTags (A ++ B) = A ++ removeTags B := by
  induction A with
  | nil => rfl
  | cons a A ih =>
    have ha : a ≠ '[' := fun h => hA (h ▸ List.mem_cons_self a A)
    rw [List.cons_append, removeTags_cons_none (matchTagAt_cons_not_bracket ha),
      ih (fun h => hA (List.mem_cons_of_mem a h)), List.cons_append]

theorem removeTags_no_bracket {s : List Char} (h : '[' ∉ s) : removeTags s = s := by
  induction s with
  | nil => rfl
  | cons a s ih =>
    have ha : a ≠ '[' := fun hh => h (hh ▸ List.mem_cons_self a s)
    rw [removeTags_cons_none (matchTagAt_cons_not_bracket ha),
      ih (fun hm => h (List.mem_cons_of_mem a hm))]

theorem wrapTag_append_eq {t B : List Char} :
    wrapTag t ++ B = '[' :: '[' :: (t ++ ']' :: ']' :: B) := by
  simp [wrapTag]

theorem matchTagAt_wrapTag_append {t : List Char} (B : List Char) (h1 : t ≠ []) (h2 : ']' ∉ t) :
    matchTagAt (wrapTag t ++ B) = some (t, B) := by
  rw [wrapTag_append_eq]
  exact matchTagAt_wrap B h1 (fun c hc he => h2 (he ▸ hc))

theorem removeTags_wrap {t B : List Char} (h1 : t ≠ []) (h2 : ']' ∉ t) :
    removeTags (wrapTag t ++ B) = removeTags B := by
  have hm := matchTagAt_wrapTag_append B h1 h2
  rw [wrapTag_append_eq] at hm ⊢
  exact removeTags_cons_some hm

theorem findTags_wrap {t B : List Char} (h1 : t ≠ []) (h2 : ']' ∉ t) :
    findTags (wrapTag t ++ B) = t :: findTags B := by
  have hm := matchTagAt_wrapTag_append B h1 h2
  rw [wrapTag_append_eq] at hm ⊢
  exact findTags_cons_some hm

theorem splitNl_ne_nil (s : List Char) : splitNl s ≠ [] := by
  induction s with
  | nil => simp [splitNl]
  | cons c cs ih =>
    simp only [splitNl]
    split_ifs <;> simp

theorem splitNl_append_nl (A B : List Char) :
    splitNl (A ++ '\n' :: B) = splitNl A ++ splitNl B := by
  induction A with
  | nil => simp [splitNl]
  | cons a A ih =>
    by_cases ha : a = '\n'
    · subst ha
      have e1 : splitNl ('\n' :: (A ++ '\n' :: B)) = [] :: splitNl (A ++ '\n' :: B) := by
        simp [splitNl]
      have e2 : splitNl ('\n' :: A) = [] :: splitNl A := by simp [splitNl]
      rw [List.cons_append, e1, e2, ih, List.cons_append]
    · simp only [List.cons_append, splitNl, if_neg ha]
      cases hA : splitNl A with
      | nil => exact absurd hA (splitNl_ne_nil A)
      | cons h t => simp [hA, ih]

theorem splitNl_no_nl {s : List Char} (h : '\n' ∉ s) : splitNl s = [s] := by
  induction s with
  | nil => rfl
  | cons c cs ih =>
    have hc : c ≠ '\n' := fun hh => h (hh ▸ List.mem_cons_self c cs)
    simp [splitNl, if_neg hc, ih (fun hm => h (List.mem_cons_of_mem c hm))]

theorem mem_of_mem_splitNl {s : List Char} :
    ∀ {l : List Char} {c : Char}, l ∈ splitNl s → c ∈ l → c ∈ s := by
  induction s with
  | nil =>
    intro l c hl hc
    simp [splitNl] at hl
    subst hl
    simp at hc
  | cons a s ih =>
    intro l c hl hc
    by_cases ha : a = '\n'
    · subst ha
      simp only [splitNl, if_pos rfl] at hl
      rcases List.mem_cons.mp hl with h | h
      · subst h; simp at hc
      · exact List.mem_cons_of_mem _ (ih h hc)
    · simp only [splitNl, if_neg ha] at hl
      cases hS : splitNl s with
      | nil => exact absurd hS (splitNl_ne_nil s)
      | cons hd tl =>
        rw [hS] at hl
        simp only [List.headI, List.tail] at hl
        rcases List.mem_cons.mp hl with h | h
        · subst h
          rcases List.mem_cons.mp hc with h | h
          · exact h ▸ List.mem_cons_self a s
          · have hhd : hd ∈ splitNl s := hS ▸ List.mem_cons_self hd tl
            exact List.mem_cons_of_mem a (ih hhd h)
        · have hl' : l ∈ splitNl s := hS ▸ List.mem_cons_of_mem hd h
          exact List.mem_cons_of_mem a (ih hl' hc)

theorem splitNl_joinNl {L : List (List Char)} (hL : L ≠ [])
    (h : ∀ l ∈ L, '\n' ∉ l) : splitNl (joinNl L) = L := by
  induction L with
  | nil => exact absurd rfl hL
  | cons l ls ih =>
    match ls with
    | [] => exact splitNl_no_nl (h l (List.mem_cons_self l []))
    | l2 :: ls2 =>
      rw [joinNl_cons_of_ne_nil (by simp), splitNl_append_nl,
        splitNl_no_nl (h l (List.mem_cons_self l (l2 :: ls2))),
        ih (by simp) (fun m hm => h m (List.mem_cons_of_mem l hm))]
      rfl

theorem mem_joinNl {c : Char} {L : List (List Char)} (h : c ∈ joinNl L) :
    c = '\n' ∨ ∃ l ∈ L, c ∈ l := by
  induction L with
  | nil => simp [joinNl] at h
  | cons l ls ih =>
    match ls with
    | [] => exact Or.inr ⟨l, by simp, by simpa [joinNl] using h⟩
    | l2 :: ls2 =>
      rw [joinNl_cons_of_ne_nil (by simp)] at h
      rcases List.mem_append.mp h with h | h
      · exact Or.inr ⟨l, by simp, h⟩
      · rcases List.mem_cons.mp h with h | h
        · exact Or.inl h
        · rcases ih h with h | ⟨m, hm, hc⟩
          · exact Or.inl h
          · exact Or.inr ⟨m, by simp [hm], hc⟩

theorem filterCodeBlocks_no_fence {L : List (List Char)}
    (h : ∀ l ∈ L, isFenceLine l = false) : filterCodeBlocks false L = L := by
  induction L with
  | nil => rfl
  | cons l ls ih =>
    have hl := h l (List.mem_cons_self l ls)
    simp only [filterCodeBlocks, hl]
    simp only [Bool.false_eq_true, if_false]
    rw [ih (fun m hm => h m (List.mem_cons_of_mem l hm))]

theorem mem_windowLines {s : List Char} {l : List Char} (h : l ∈ windowLines s) :
    l ∈ splitNl s := by
  unfold windowLines at h
  split_ifs at h
  · exact List.mem_of_mem_drop h
  · exact h

theorem windowLines_drop_first_line {l rest : List Char} (hnl : '\n' ∉ l)
    (hlen : 20 ≤ (splitNl rest).length) :
    windowLines (l ++ '\n' :: rest) = windowLines rest := by
  unfold windowLines
  rw [splitNl_append_nl, splitNl_no_nl hnl]
  simp only [List.singleton_append, List.length_cons]
  rw [if_pos (by omega)]
  by_cases h20 : (splitNl rest).length > 20
  · rw [if_pos h20]
    have he : (splitNl rest).length + 1 - 20 = ((splitNl rest).length - 20) + 1 := by
      omega
    rw [he, List.drop_succ_cons]
  · rw [if_neg h20]
    have he : (splitNl rest).length + 1 - 20 = 1 := by omega
    rw [he, List.drop_succ_cons, List.drop_zero]

/-- C9: a tag token on line 1 of a document of more than 20 lines is outside
the validator's window, so validate_tags ignores the first line entirely
(first conjunct: the outputs coincide with those of the document without its
first line); but the whole-document integrity check strips every well-formed
tag token wherever it is, so inserting or removing one does not change its
verdict (second conjunct: a document with the token and the same document
without it verify as unchanged). -/
theorem c9_windowing_vs_whole_document (l rest A B t : List Char)
    (hnl : '\n' ∉ l) (hlen : 20 ≤ (splitNl rest).length)
    (ht1 : t ≠ []) (ht2 : ']' ∉ t) (hA : '[' ∉ A) :
    validate_tags (l ++ '\n' :: rest) = validate_tags rest ∧
    verify_content_unchanged (A ++ wrapTag t ++ B) (A ++ B) = true := by
  constructor
  · unfold validate_tags windowTags keptLines
    rw [windowLines_drop_first_line hnl hlen]
  · unfold verify_content_unchanged
    have h1 : removeTags (A ++ wrapTag t ++ B) = A ++ removeTags B := by
      rw [List.append_assoc, removeTags_append_no_bracket hA, removeTags_wrap ht1 ht2]
    have h2 : removeTags (A ++ B) = A ++ removeTags B := removeTags_append_no_bracket hA
    rw [h1, h2]
    simp

/-- C8 counterexample: X = "a\nb" and Y = "a\n\nb" differ by one blank line
inserted strictly in the middle, with no tags involved, yet the integrity
check returns false (the change IS flagged as a violation). -/
theorem c8_counterexample :
    verify_content_unchanged "a\nb".toList "a\n\nb".toList = false := by decide

theorem dropWhile_append_of_exists {p : Char → Bool} {A : List Char} (B : List Char)
    (hA : ∃ a ∈ A, p a = false) : (A ++ B).dropWhile p = A.dropWhile p ++ B := by
  induction A with
  | nil => obtain ⟨a, ha, -⟩ := hA; simp at ha
  | cons a A ih =>
    by_cases hws : p a = true
    · obtain ⟨x, hx, hxf⟩ := hA
      rcases List.mem_cons.mp hx with h | h
      · subst h; rw [hws] at hxf; cases hxf
      · simp only [List.cons_append, List.dropWhile_cons, hws, if_true]
        exact ih ⟨x, h, hxf⟩
    · have hf : p a = false := by simpa using hws
      simp [List.dropWhile_cons, hf]

theorem lstripW_append {A : List Char} (B : List Char)
    (hA : ∃ a ∈ A, pyWsChar a = false) : lstripW (A ++ B) = lstripW A ++ B :=
  dropWhile_append_of_exists B hA

theorem rstripW_append (A : List Char) {B : List Char}
    (hB : ∃ b ∈ B, pyWsChar b = false) : rstripW (A ++ B) = A ++ rstripW B := by
  unfold rstripW
  rw [List.reverse_append]
  have hB' : ∃ b ∈ B.reverse, pyWsChar b = false := by
    obtain ⟨b, hb, hf⟩ := hB
    exact ⟨b, List.mem_reverse.mpr hb, hf⟩
  rw [dropWhile_append_of_exists A.reverse hB', List.reverse_append,
    List.reverse_reverse]

/-- C8, amended: a whitespace-only change strictly in the middle of the
document (one inserted blank line between a part A and a part B that each
contain visible text, no tags involved) IS flagged by verify_content_unchanged,
which returns false; only changes confined to the leading or trailing
whitespace or to tag tokens escape the check. -/
theorem c8_amended_mid_whitespace_flagged (A B : List Char)
    (hA : '[' ∉ A) (hB : '[' ∉ B)
    (ha : ∃ a ∈ A, pyWsChar a = false) (hb : ∃ b ∈ B, pyWsChar b = false) :
    verify_content_unchanged (A ++ '\n' :: B) (A ++ '\n' :: '\n' :: B) = false := by
  unfold verify_content_unchanged
  have hm1 : '[' ∉ A ++ '\n' :: B := by
    intro hm
    rcases List.mem_append.mp hm with h | h
    · exact hA h
    · rcases List.mem_cons.mp h with h | h
      · exact absurd h (by decide)
      · exact hB h
  have hm2 : '[' ∉ A ++ '\n' :: '\n' :: B := by
    intro hm
    rcases List.mem_append.mp hm with h | h
    · exact hA h
    · rcases List.mem_cons.mp h with h | h
      · exact absurd h (by decide)
      · rcases List.mem_cons.mp h with h | h
        · exact absurd h (by decide)
        · exact hB h
  rw [removeTags_no_bracket hm1, removeTags_no_bracket hm2]
  unfold pyStrip
  rw [lstripW_append ('\n' :: B) ha, lstripW_append ('\n' :: '\n' :: B) ha]
  have e1 : lstripW A ++ '\n' :: B = (lstripW A ++ ['\n']) ++ B := by simp
  have e2 : lstripW A ++ '\n' :: '\n' :: B = (lstripW A ++ ['\n', '\n']) ++ B := by simp
  rw [e1, e2, rstripW_append (lstripW A ++ ['\n']) hb,
    rstripW_append (lstripW A ++ ['\n', '\n']) hb]
  apply beq_eq_false_iff_ne.mpr
  intro heq
  have hlen := congrArg List.length heq
  simp only [List.length_append, List.length_cons, List.length_nil] at hlen
  omega

theorem tagChars_props : ∀ c ∈ tagChars, pyForbidden.contains c = false ∧
    c ≠ ' ' ∧ pyLower c = c ∧ c ≠ '\n' ∧ c ≠ '[' ∧ c ≠ ']' := by decide

theorem mem_tagChars_of_isTagChar {c : Char} (h : isTagChar c = true) :
    c ∈ tagChars := by simpa [isTagChar] using h

theorem specValidTag_of_tagChars {t : List Char} (h1 : t ≠ [])
    (h2 : t.all isTagChar = true) : specValidTag t = true := by
  have hprops : ∀ c ∈ t, pyForbidden.contains c = false ∧ c ≠ ' ' ∧ pyLower c = c ∧
      c ≠ '\n' ∧ c ≠ '[' ∧ c ≠ ']' := fun c hc =>
    tagChars_props c (mem_tagChars_of_isTagChar (List.all_eq_true.mp h2 c hc))
  have hany : t.any (fun c => pyForbidden.contains c) = false := by
    rw [List.any_eq_false]
    intro c hc
    simpa using (hprops c hc).1
  have hsp : ' ' ∉ t := fun hm => (hprops ' ' hm).2.1 rfl
  have hcontains : t.contains ' ' = false := by simpa using hsp
  have hmap : t.map pyLower = t := by
    rw [List.map_congr_left (fun c hc => (hprops c hc).2.2.1)]
    simp
  have hmatch : pyFullMatchTag t = true := by
    unfold pyFullMatchTag
    have hlast : ¬ t.getLast? = some '\n' := by
      intro hl
      have hm : '\n' ∈ t := List.mem_of_mem_getLast? (by simp [hl])
      exact (hprops '\n' hm).2.2.2.1 rfl
    rw [if_neg hlast]
    simp [h1, h2]
  unfold specValidTag
  rw [hany, hcontains, hmatch, hmap]
  simp

theorem classifyTags_all_valid {T : List (List Char)}
    (h : ∀ t ∈ T, specValidTag t = true) : classifyTags T = (T, []) := by
  induction T with
  | nil => rfl
  | cons t ts ih =>
    rw [classifyTags_cons]
    simp [h t (List.mem_cons_self t ts),
      ih (fun m hm => h m (List.mem_cons_of_mem t hm))]

theorem lstripW_cons_not_ws {x : Char} {X : List Char} (hx : pyWsChar x = false) :
    lstripW (x :: X) = x :: X := by simp [lstripW, List.dropWhile_cons, hx]

theorem rstripW_append_not_ws (X : List Char) {x : Char} (hx : pyWsChar x = false) :
    rstripW (X ++ [x]) = X ++ [x] := by
  unfold rstripW
  rw [List.reverse_append]
  simp [List.dropWhile_cons, hx]

theorem pyStrip_wrapTag (t : List Char) : pyStrip (wrapTag t) = wrapTag t := by
  unfold pyStrip
  have h1 : lstripW (wrapTag t) = wrapTag t := by
    unfold wrapTag
    exact lstripW_cons_not_ws (by decide)
  rw [h1]
  have e : wrapTag t = ('[' :: '[' :: t ++ [']']) ++ [']'] := by simp [wrapTag]
  rw [e]
  exact rstripW_append_not_ws _ (by decide)

theorem fence_prefix_bracket (l : List Char) :
    "```".toList.isPrefixOf ('[' :: l) = false := by
  have h : "```".toList = Char.ofNat 96 :: Char.ofNat 96 :: Char.ofNat 96 :: [] := by
    decide
  have hb : (Char.ofNat 96 == '[') = false := by decide
  rw [h]
  simp [List.isPrefixOf, hb]

theorem isFenceLine_wrapTag (t : List Char) : isFenceLine (wrapTag t) = false := by
  unfold isFenceLine
  rw [pyStrip_wrapTag]
  unfold wrapTag
  exact fence_prefix_bracket _

theorem findTags_joinNl_skipHead {S M : List (List Char)}
    (hS : ∀ l ∈ S, '[' ∉ l) (hM : M ≠ []) :
    findTags (joinNl (S ++ M)) = findTags (joinNl M) := by
  induction S with
  | nil => rfl
  | cons l S ih =>
    have hne : S ++ M ≠ [] := fun hcon => hM (List.append_eq_nil.mp hcon).2
    rw [List.cons_append, joinNl_cons_of_ne_nil hne]
    have e : l ++ '\n' :: joinNl (S ++ M) = (l ++ ['\n']) ++ joinNl (S ++ M) := by
      simp
    have hbr : '[' ∉ l ++ ['\n'] := by
      intro hm
      rcases List.mem_append.mp hm with h | h
      · exact hS l (List.mem_cons_self l S) h
      · rcases List.mem_cons.mp h with h | h
        · exact absurd h (by decide)
        · simp at h
    rw [e, findTags_append_no_bracket hbr]
    exact ih (fun m hm => hS m (List.mem_cons_of_mem l hm))

theorem findTags_tagBlock {T : List (List Char)}
    (hT : ∀ t ∈ T, t ≠ [] ∧ ']' ∉ t) :
    findTags (joinNl (T.map wrapTag)) = T := by
  induction T with
  | nil => rfl
  | cons t ts ih =>
    match ts with
    | [] =>
      show findTags (joinNl [wrapTag t]) = [t]
      have e : joinNl [wrapTag t] = wrapTag t ++ [] := by simp [joinNl]
      rw [e, findTags_wrap (hT t (by simp)).1 (hT t (by simp)).2]
      rfl
    | t2 :: ts2 =>
      have e : (t :: t2 :: ts2).map wrapTag = wrapTag t :: (t2 :: ts2).map wrapTag :=
        rfl
      rw [e, joinNl_cons_of_ne_nil (by simp),
        findTags_wrap (hT t (by simp)).1 (hT t (by simp)).2,
        findTags_cons_none (matchTagAt_cons_not_bracket (by decide)),
        ih (fun m hm => hT m (List.mem_cons_of_mem t hm))]

/-- C2, amended: Document Repair followed by validate_tags returns exactly the
tags of T as valid tags and no invalid tags, provided that T contains at most
19 tags each nonempty and matching the strict character class [a-z0-9-], and
that the repaired remainder (the document after tag removal and right-trim)
contributes no code-fence line and no opening bracket to the trailing
last-20-line window of the repaired document: the provisos only constrain the
window lines that come from the remainder, so fences or brackets in earlier,
out-of-window lines are allowed.  Without those provisos the claim fails (see
the counterexample: a code-fence line of the remainder inside the window
swallows the appended tag block). -/
theorem c2_repair_validate (D : List Char) (T : List (List Char))
    (hT : ∀ t ∈ T, t ≠ [] ∧ t.all isTagChar = true)
    (hlen : T.length ≤ 19)
    (hfence : ∀ l ∈ windowLines (cleanup_invalid_tags D T),
      l ∈ splitNl (rstripW (removeTagsWS D)) → isFenceLine l = false)
    (hbr : ∀ l ∈ windowLines (cleanup_invalid_tags D T),
      l ∈ splitNl (rstripW (removeTagsWS D)) → '[' ∉ l) :
    validate_tags (cleanup_invalid_tags D T) = (T, []) := by
  have hTprops : ∀ t ∈ T, t ≠ [] ∧ ']' ∉ t ∧ '\n' ∉ t := by
    intro t ht
    obtain ⟨h1, h2⟩ := hT t ht
    refine ⟨h1, ?_, ?_⟩
    · intro hm
      have hmem := mem_tagChars_of_isTagChar (List.all_eq_true.mp h2 _ hm)
      exact (tagChars_props ']' hmem).2.2.2.2.2 rfl
    · intro hm
      have hmem := mem_tagChars_of_isTagChar (List.all_eq_true.mp h2 _ hm)
      exact (tagChars_props '\n' hmem).2.2.2.1 rfl
  by_cases hTnil : T = []
  · subst hTnil
    have hclean : cleanup_invalid_tags D [] = rstripW (removeTagsWS D) := by
      simp [cleanup_invalid_tags]
    rw [hclean] at hfence hbr
    rw [hclean]
    have hkept : keptLines (rstripW (removeTagsWS D)) =
        windowLines (rstripW (removeTagsWS D)) :=
      filterCodeBlocks_no_fence (fun l hl => hfence l hl (mem_windowLines hl))
    unfold validate_tags windowTags
    rw [hkept]
    have hnob : '[' ∉ joinNl (windowLines (rstripW (removeTagsWS D))) := by
      intro hm
      rcases mem_joinNl hm with h | ⟨l, hl, hc⟩
      · exact absurd h (by decide)
      · exact hbr l hl (mem_windowLines hl) hc
    rw [findTags_no_bracket hnob]
    rfl
  · have hclean : cleanup_invalid_tags D T =
        rstripW (removeTagsWS D) ++ '\n' :: '\n' :: joinNl (T.map wrapTag) := by
      unfold cleanup_invalid_tags
      rw [if_pos hTnil]
    have hmapnl : ∀ m ∈ T.map wrapTag, '\n' ∉ m := by
      intro m hm hnm
      obtain ⟨t, ht, rfl⟩ := List.mem_map.mp hm
      simp only [wrapTag, List.mem_cons, List.mem_append] at hnm
      rcases hnm with h | h | h
      · exact absurd h (by decide)
      · exact absurd h (by decide)
      · rcases h with h | h
        · exact (hTprops t ht).2.2 h
        · exact absurd h (by decide)
    have hmapne : T.map wrapTag ≠ [] := by simpa using hTnil
    have hsplit : splitNl (cleanup_invalid_tags D T) =
        splitNl (rstripW (removeTagsWS D)) ++ [] :: T.map wrapTag := by
      rw [hclean]
      have e : rstripW (removeTagsWS D) ++ '\n' :: '\n' :: joinNl (T.map wrapTag) =
          rstripW (removeTagsWS D) ++ '\n' :: ('\n' :: joinNl (T.map wrapTag)) := rfl
      rw [e, splitNl_append_nl]
      congr 1
      have e2 : splitNl ('\n' :: joinNl (T.map wrapTag)) =
          [] :: splitNl (joinNl (T.map wrapTag)) := by simp [splitNl]
      rw [e2, splitNl_joinNl hmapne hmapnl]
    have hwin : windowLines (cleanup_invalid_tags D T) =
        (splitNl (rstripW (removeTagsWS D))).drop
            ((splitNl (rstripW (removeTagsWS D))).length + (1 + T.length) - 20) ++
          ([] :: T.map wrapTag) := by
      unfold windowLines
      rw [hsplit]
      have hlen2 : (splitNl (rstripW (removeTagsWS D)) ++ [] :: T.map wrapTag).length =
          (splitNl (rstripW (removeTagsWS D))).length + (1 + T.length) := by
        simp
        omega
      rw [hlen2]
      split_ifs with hgt
      · rw [List.drop_append_of_le_length (by omega)]
      · have h0 : (splitNl (rstripW (removeTagsWS D))).length + (1 + T.length) - 20 =
            0 := by omega
        rw [h0, List.drop_zero]
    have hkeep : keptLines (cleanup_invalid_tags D T) =
        windowLines (cleanup_invalid_tags D T) := by
      apply filterCodeBlocks_no_fence
      intro l hl
      have hl0 := hl
      rw [hwin] at hl
      rcases List.mem_append.mp hl with h | h
      · exact hfence l hl0 (List.mem_of_mem_drop h)
      · rcases List.mem_cons.mp h with h | h
        · subst h; decide
        · obtain ⟨t, ht, rfl⟩ := List.mem_map.mp h
          exact isFenceLine_wrapTag t
    unfold validate_tags windowTags
    rw [hkeep, hwin]
    have hSdrop : ∀ m ∈ (splitNl (rstripW (removeTagsWS D))).drop
        ((splitNl (rstripW (removeTagsWS D))).length + (1 + T.length) - 20),
        '[' ∉ m := by
      intro m hm
      have hmw : m ∈ windowLines (cleanup_invalid_tags D T) := by
        rw [hwin]
        exact List.mem_append.mpr (Or.inl hm)
      exact hbr m hmw (List.mem_of_mem_drop hm)
    rw [findTags_joinNl_skipHead hSdrop (by simp)]
    rw [joinNl_cons_of_ne_nil hmapne, List.nil_append,
      findTags_cons_none (matchTagAt_cons_not_bracket (by decide)),
      findTags_tagBlock (fun t ht => ⟨(hTprops t ht).1, (hTprops t ht).2.1⟩)]
    exact classifyTags_all_valid
      (fun t ht => specValidTag_of_tagChars (hT t ht).1 (hT t ht).2)

/-- C2 counterexample: with D consisting of a single code-fence line and
T = ["a"], Document Repair followed by validate_tags yields no tags at all (the
unclosed fence line in the window hides the appended tag block), so the result
is not the tag list T modulo order. -/
theorem c2_counterexample :
    validate_tags (cleanup_invalid_tags "```".toList ["a".toList]) = ([], []) ∧
    ¬ List.Perm ([] : List (List Char)) ["a".toList] := by
  constructor
  · decide
  · intro h
    have := h.length_eq
    simp at this

theorem removeTagsWS_append_no_bracket {A B : List Char} (hA : '[' ∉ A) :
    removeTagsWS (A ++ B) = A ++ removeTagsWS B := by
  induction A with
  | nil => rfl
  | cons a A ih =>
    have ha : a ≠ '[' := fun h => hA (h ▸ List.mem_cons_self a A)
    rw [List.cons_append, removeTagsWS_cons_none (matchTagAt_cons_not_bracket ha),
      ih (fun h => hA (List.mem_cons_of_mem a h)), List.cons_append]

theorem dropWhile_append_all {p : Char → Bool} {w : List Char} (B : List Char)
    (hw : w.all p = true) (hB : ∀ c, B.head? = some c → p c = false) :
    (w ++ B).dropWhile p = B := by
  induction w with
  | nil =>
    simp only [List.nil_append]
    match B with
    | [] => rfl
    | b :: B' =>
      have hb := hB b rfl
      simp [List.dropWhile_cons, hb]
  | cons a w ih =>
    have ha : p a = true := List.all_eq_true.mp hw a (by simp)
    have hw' : w.all p = true := by
      rw [List.all_cons, ha] at hw
      simpa using hw
    simp only [List.cons_append, List.dropWhile_cons, ha, if_true]
    exact ih hw'

/-- C7 counterexample: on the document "[[a]] x" with an empty valid-tag list,
the source function removes the tag AND the following space (the greedy \s* of
its pattern), producing "x"; the claim as stated (remove only the tag and an
immediately trailing newline, then trim trailing whitespace) predicts " x". -/
theorem c7_counterexample :
    cleanup_invalid_tags "[[a]] x".toList [] = "x".toList ∧
    claimCleanupC7 "[[a]] x".toList [] = " x".toList ∧
    ("x".toList : List Char) ≠ " x".toList :=
  ⟨by decide, by decide, by decide⟩

/-- C7, amended: Document Repair removes every tag occurrence together with the
maximal run of immediately following whitespace characters (not just one
newline) and nothing more of the surrounding text, trims trailing whitespace
from the remainder, then appends a blank line plus the tags wrapped one per
line when the valid-tag list is nonempty, and returns the trimmed remainder
verbatim when the list is empty.  The third conjunct states the removal
behavior: for a well-formed occurrence preceded by bracket-free text and
followed by a whitespace run w and a remainder B not starting with whitespace,
exactly the occurrence and w are deleted. -/
theorem c7_cleanup_behavior (D : List Char) (T : List (List Char))
    (A t w B : List Char) :
    (T ≠ [] → cleanup_invalid_tags D T =
      rstripW (removeTagsWS D) ++ '\n' :: '\n' :: joinNl (T.map wrapTag)) ∧
    (cleanup_invalid_tags D [] = rstripW (removeTagsWS D)) ∧
    ('[' ∉ A → t ≠ [] → ']' ∉ t → w.all pyWsChar = true →
      (∀ c, B.head? = some c → pyWsChar c = false) →
      removeTagsWS (A ++ (wrapTag t ++ (w ++ B))) = A ++ removeTagsWS B) := by
  refine ⟨?_, ?_, ?_⟩
  · intro hT
    unfold cleanup_invalid_tags
    rw [if_pos hT]
  · simp [cleanup_invalid_tags]
  · intro hA h1 h2 hw hB
    rw [removeTagsWS_append_no_bracket hA]
    congr 1
    have hm := matchTagAt_wrapTag_append (w ++ B) h1 h2
    rw [wrapTag_append_eq] at hm
    rw [wrapTag_append_eq, removeTagsWS_cons_some hm, dropWhile_append_all B hw hB]

theorem process_file_short_circuit (env : Nat → AttemptEvent) (force : Bool)
    (c : List Char) (rc : Nat)
    (h : ((check_already_tagged c).1 && !force) = true) :
    process_file env force c rc =
      ⟨true, none, (check_already_tagged c).2, c, [], 0⟩ := by
  unfold process_file
  rw [if_pos h]

theorem process_file_timeout_retry (env : Nat → AttemptEvent) (force : Bool)
    (c a : List Char) (rc rc' : Nat)
    (hsc : ((check_already_tagged c).1 && !force) = false)
    (hev : env rc = .timeout a) (hrc : rc < 2) (hrc' : rc' = rc + 1) :
    process_file env force c rc =
      ⟨(process_file env force a rc').success, (process_file env force a rc').err,
       (process_file env force a rc').tags, (process_file env force a rc').file,
       2 :: (process_file env force a rc').sleeps,
       (process_file env force a rc').invocations + 1⟩ := by
  subst hrc'
  conv_lhs => rw [process_file.eq_def]
  rw [if_neg (by simp [hsc])]
  simp only [hev]
  rw [dif_pos hrc]

theorem process_file_timeout_fail (env : Nat → AttemptEvent) (force : Bool)
    (c a : List Char) (rc : Nat)
    (hsc : ((check_already_tagged c).1 && !force) = false)
    (hev : env rc = .timeout a) (hrc : ¬ rc < 2) :
    process_file env force c rc =
      ⟨false, some (.timeoutAfter (rc + 1)), [], a, [], 1⟩ := by
  unfold process_file
  rw [if_neg (by simp [hsc])]
  simp only [hev]
  rw [dif_neg hrc]

theorem process_file_exc_retry (env : Nat → AttemptEvent) (force : Bool)
    (c a msg : List Char) (invoked : Bool) (rc rc' : Nat)
    (hsc : ((check_already_tagged c).1 && !force) = false)
    (hev : env rc = .exc invoked msg a) (hrc : rc < 1) (hrc' : rc' = rc + 1) :
    process_file env force c rc =
      ⟨(process_file env force a rc').success, (process_file env force a rc').err,
       (process_file env force a rc').tags, (process_file env force a rc').file,
       1 :: (process_file env force a rc').sleeps,
       (process_file env force a rc').invocations + (if invoked then 1 else 0)⟩ := by
  subst hrc'
  conv_lhs => rw [process_file.eq_def]
  rw [if_neg (by simp [hsc])]
  simp only [hev]
  rw [dif_pos hrc]

theorem process_file_exc_fail (env : Nat → AttemptEvent) (force : Bool)
    (c a msg : List Char) (invoked : Bool) (rc : Nat)
    (hsc : ((check_already_tagged c).1 && !force) = false)
    (hev : env rc = .exc invoked msg a) (hrc : ¬ rc < 1) :
    process_file env force c rc =
      ⟨false, some (.errorAfterRetry msg), [], a, [], if invoked then 1 else 0⟩ := by
  unfold process_file
  rw [if_neg (by simp [hsc])]
  simp only [hev]
  rw [dif_neg hrc]

/-- C1: when the integrity check on (original, updated) reports changed after
the external invocation returns with exit code 0, process_file overwrites the
file back to the original text verbatim (final file content = the
pre-invocation snapshot c), returns failure with the fixed error message
"Content verification failed - restored original", and does not retry that
branch (no sleeps, exactly one invocation, the attempt is terminal). -/
theorem c1_integrity_restore (env : Nat → AttemptEvent) (force : Bool)
    (c stderrText after : List Char) (rc : Nat)
    (hsc : ((check_already_tagged c).1 && !force) = false)
    (hev : env rc = .ret 0 stderrText after)
    (hbad : verify_content_unchanged c after = false) :
    process_file env force c rc =
      ⟨false, some .verificationFailed, [], c, [], 1⟩ := by
  unfold process_file
  rw [if_neg (by simp [hsc])]
  simp only [hev]
  rw [if_neg (by simp : ¬ (0 : Int) ≠ 0)]
  rw [if_pos (by simp [hbad])]

/-- C5: on a file that already carries a non-reserved tag, process_file with
force = false short-circuits: it succeeds with no error, returns the existing
non-reserved tags unchanged, leaves the file untouched and performs no external
invocation (invocations = 0); running the protocol again on the resulting file
returns the identical result, again with no invocation. -/
theorem c5_idempotent_short_circuit (env env2 : Nat → AttemptEvent)
    (c : List Char) (rc rc2 : Nat)
    (h : (check_already_tagged c).1 = true) :
    process_file env false c rc =
      ⟨true, none, (check_already_tagged c).2, c, [], 0⟩ ∧
    process_file env2 false (process_file env false c rc).file rc2 =
      process_file env false c rc := by
  have hsc : ((check_already_tagged c).1 && !false) = true := by simp [h]
  have h1 := process_file_short_circuit env false c rc hsc
  refine ⟨h1, ?_⟩
  rw [h1]
  exact process_file_short_circuit env2 false c rc2 hsc

/-- C3: the retry policy of process_file.  First conjunct: three consecutive
timeouts starting at retry_count 0 re-run the protocol twice more, sleep 2
units between attempts, start 3 invocations and fail with the message stating
3 attempts, the file holding whatever the third attempt left.  Second
conjunct: the retry re-runs from the top, re-checking existing tags: if the
file left behind after the first timeout already carries a non-reserved tag
(and force is false), the retry short-circuits into success with those tags,
after the single sleep of 2.  Third conjunct: two consecutive generic
exceptions retry once with a sleep of 1 and fail wrapping the second error. -/
theorem c3_retry_policy :
    (∀ (env : Nat → AttemptEvent) (force : Bool) (c a0 a1 a2 : List Char),
      ((check_already_tagged c).1 && !force) = false →
      ((check_already_tagged a0).1 && !force) = false →
      ((check_already_tagged a1).1 && !force) = false →
      env 0 = .timeout a0 → env 1 = .timeout a1 → env 2 = .timeout a2 →
      process_file env force c 0 =
        ⟨false, some (.timeoutAfter 3), [], a2, [2, 2], 3⟩) ∧
    (∀ (env : Nat → AttemptEvent) (c a0 : List Char),
      (check_already_tagged c).1 = false →
      (check_already_tagged a0).1 = true →
      env 0 = .timeout a0 →
      process_file env false c 0 =
        ⟨true, none, (check_already_tagged a0).2, a0, [2], 1⟩) ∧
    (∀ (env : Nat → AttemptEvent) (force : Bool) (c b0 b1 e0 e1 : List Char)
        (i0 i1 : Bool),
      ((check_already_tagged c).1 && !force) = false →
      ((check_already_tagged b0).1 && !force) = false →
      env 0 = .exc i0 e0 b0 → env 1 = .exc i1 e1 b1 →
      process_file env force c 0 =
        ⟨false, some (.errorAfterRetry e1), [], b1, [1],
          (if i1 then 1 else 0) + (if i0 then 1 else 0)⟩) := by
  refine ⟨?_, ?_, ?_⟩
  · intro env force c a0 a1 a2 hsc hsc0 hsc1 hev0 hev1 hev2
    have e2 : process_file env force a1 2 =
        ⟨false, some (.timeoutAfter 3), [], a2, [], 1⟩ :=
      process_file_timeout_fail env force a1 a2 2 hsc1 hev2 (by omega)
    have e1 : process_file env force a0 1 =
        ⟨false, some (.timeoutAfter 3), [], a2, [2], 2⟩ := by
      rw [process_file_timeout_retry env force a0 a1 1 2 hsc0 hev1 (by omega) rfl, e2]
    rw [process_file_timeout_retry env force c a0 0 1 hsc hev0 (by omega) rfl, e1]
  · intro env c a0 hc ha0 hev0
    have hsc : ((check_already_tagged c).1 && !false) = false := by simp [hc]
    have hsca : ((check_already_tagged a0).1 && !false) = true := by simp [ha0]
    have e1 : process_file env false a0 1 =
        ⟨true, none, (check_already_tagged a0).2, a0, [], 0⟩ :=
      process_file_short_circuit env false a0 1 hsca
    rw [process_file_timeout_retry env false c a0 0 1 hsc hev0 (by omega) rfl, e1]
  · intro env force c b0 b1 e0 e1 i0 i1 hsc hsc0 hev0 hev1
    have he1 : process_file env force b0 1 =
        ⟨false, some (.errorAfterRetry e1), [], b1, [], if i1 then 1 else 0⟩ :=
      process_file_exc_fail env force b0 b1 e1 i1 1 hsc0 hev1 (by omega)
    rw [process_file_exc_retry env force c b0 e0 i0 0 1 hsc hev0 (by omega) rfl, he1]

/-- C10: the two retry budgets of process_file share the single retry_count
counter.  First conjunct: an attempt with retry_count ≥ 1 that raises a
non-timeout exception fails immediately, with no sleep and no further attempt,
whatever consumed the earlier budget.  Second conjunct: after one timeout
retry, a generic exception at retry_count 1 ends the run with the wrapped
error even though the generic-error budget was never used by a generic error
(sleeps = [2] only).  Third conjunct: a generic-error retry consumes the shared
counter, so two subsequent timeouts already exhaust the timeout budget and the
final message reports 3 attempts after only 2 timeouts (sleeps = [1, 2]). -/
theorem c10_shared_retry_counter :
    (∀ (env : Nat → AttemptEvent) (force : Bool) (c b e : List Char)
        (i : Bool) (rc : Nat),
      1 ≤ rc →
      ((check_already_tagged c).1 && !force) = false →
      env rc = .exc i e b →
      process_file env force c rc =
        ⟨false, some (.errorAfterRetry e), [], b, [], if i then 1 else 0⟩) ∧
    (∀ (env : Nat → AttemptEvent) (force : Bool) (c a0 b1 e : List Char) (i : Bool),
      ((check_already_tagged c).1 && !force) = false →
      ((check_already_tagged a0).1 && !force) = false →
      env 0 = .timeout a0 → env 1 = .exc i e b1 →
      process_file env force c 0 =
        ⟨false, some (.errorAfterRetry e), [], b1, [2],
          (if i then 1 else 0) + 1⟩) ∧
    (∀ (env : Nat → AttemptEvent) (force : Bool) (c b0 a1 a2 e : List Char)
        (i : Bool),
      ((check_already_tagged c).1 && !force) = false →
      ((check_already_tagged b0).1 && !force) = false →
      ((check_already_tagged a1).1 && !force) = false →
      env 0 = .exc i e b0 → env 1 = .timeout a1 → env 2 = .timeout a2 →
      process_file env force c 0 =
        ⟨false, some (.timeoutAfter 3), [], a2, [1, 2],
          2 + (if i then 1 else 0)⟩) := by
  refine ⟨?_, ?_, ?_⟩
  · intro env force c b e i rc hrc hsc hev
    exact process_file_exc_fail env force c b e i rc hsc hev (by omega)
  · intro env force c a0 b1 e i hsc hsc0 hev0 hev1
    have he1 : process_file env force a0 1 =
        ⟨false, some (.errorAfterRetry e), [], b1, [], if i then 1 else 0⟩ :=
      process_file_exc_fail env force a0 b1 e i 1 hsc0 hev1 (by omega)
    rw [process_file_timeout_retry env force c a0 0 1 hsc hev0 (by omega) rfl, he1]
  · intro env force c b0 a1 a2 e i hsc hsc0 hsc1 hev0 hev1 hev2
    have he2 : process_file env force a1 2 =
        ⟨false, some (.timeoutAfter 3), [], a2, [], 1⟩ :=
      process_file_timeout_fail env force a1 a2 2 hsc1 hev2 (by omega)
    have he1 : process_file env force b0 1 =
        ⟨false, some (.timeoutAfter 3), [], a2, [2], 2⟩ := by
      rw [process_file_timeout_retry env force b0 a1 1 2 hsc0 hev1 (by omega) rfl, he2]
    rw [process_file_exc_retry env force c b0 e i 0 1 hsc hev0 (by omega) rfl, he1]


theorem aggregateResults_cons_raised (p m : List Char)
    (rest : List (List Char × TaskOutcome)) :
    aggregateResults ((p, .raised m) :: rest) =
      ((aggregateResults rest).1, (aggregateResults rest).2.1 + 1,
        (p, .raisedText m) :: (aggregateResults rest).2.2) := rfl

theorem aggregateResults_cons_success (p : List Char) (pr : ProcResult)
    (rest : List (List Char × TaskOutcome)) (h : pr.success = true) :
    aggregateResults ((p, .completed pr) :: rest) =
      ((aggregateResults rest).1 + 1, (aggregateResults rest).2.1,
        (aggregateResults rest).2.2) := by
  simp only [aggregateResults]
  rw [if_pos h]

theorem aggregateResults_cons_failure (p : List Char) (pr : ProcResult)
    (rest : List (List Char × TaskOutcome)) (h : pr.success = false) :
    aggregateResults ((p, .completed pr) :: rest) =
      ((aggregateResults rest).1, (aggregateResults rest).2.1 + 1,
        (p, orUnknown pr.err) :: (aggregateResults rest).2.2) := by
  simp only [aggregateResults]
  rw [if_neg (by simp [h])]

theorem specFailEntries_cons (p : List Char) (o : TaskOutcome)
    (rest : List (List Char × TaskOutcome)) :
    specFailEntries ((p, o) :: rest) =
      ((outcomeFailMsg o).map (fun m => (p, m))).toList ++ specFailEntries rest :=
  rfl

theorem aggregateResults_spec (l : List (List Char × TaskOutcome)) :
    (aggregateResults l).2.2 = specFailEntries l ∧
    (aggregateResults l).1 = specSuccessCount l ∧
    (aggregateResults l).2.1 = (specFailEntries l).length := by
  induction l with
  | nil => exact ⟨rfl, rfl, rfl⟩
  | cons po rest ih =>
    obtain ⟨p, o⟩ := po
    obtain ⟨ih1, ih2, ih3⟩ := ih
    cases o with
    | raised m =>
      rw [aggregateResults_cons_raised, specFailEntries_cons]
      have hmsg : outcomeFailMsg (TaskOutcome.raised m) = some (.raisedText m) := rfl
      rw [hmsg]
      refine ⟨?_, ?_, ?_⟩
      · simpa using ih1
      · show (aggregateResults rest).1 = specSuccessCount ((p, .raised m) :: rest)
        simp only [specSuccessCount, isSuccessOutcome]
        simpa using ih2
      · simpa using ih3
    | completed pr =>
      by_cases hs : pr.success = true
      · rw [aggregateResults_cons_success p pr rest hs, specFailEntries_cons]
        have hmsg : outcomeFailMsg (TaskOutcome.completed pr) = none := by
          simp [outcomeFailMsg, hs]
        rw [hmsg]
        refine ⟨?_, ?_, ?_⟩
        · simpa using ih1
        · show (aggregateResults rest).1 + 1 =
            specSuccessCount ((p, .completed pr) :: rest)
          simp only [specSuccessCount, isSuccessOutcome, hs, if_true]
          omega
        · simpa using ih3
      · have hf : pr.success = false := by simpa using hs
        rw [aggregateResults_cons_failure p pr rest hf, specFailEntries_cons]
        have hmsg : outcomeFailMsg (TaskOutcome.completed pr) =
            some (orUnknown pr.err) := by
          simp [outcomeFailMsg, hf]
        rw [hmsg]
        refine ⟨?_, ?_, ?_⟩
        · simpa using ih1
        · show (aggregateResults rest).1 =
            specSuccessCount ((p, .completed pr) :: rest)
          simp only [specSuccessCount, isSuccessOutcome, hf]
          simpa using ih2
        · simp only [Option.map_some', Option.toList_some, List.singleton_append,
            List.length_cons]
          simpa using ih3

theorem specFailEntries_fst_sublist (l : List (List Char × TaskOutcome)) :
    ((specFailEntries l).map Prod.fst).Sublist (l.map Prod.fst) := by
  induction l with
  | nil => simp [specFailEntries]
  | cons po rest ih =>
    obtain ⟨p, o⟩ := po
    rw [specFailEntries_cons]
    cases hmsg : outcomeFailMsg o with
    | none =>
      simp only [hmsg, Option.map_none', Option.toList_none, List.nil_append,
        List.map_cons]
      exact ih.trans (List.sublist_cons_self p (rest.map Prod.fst))
    | some m =>
      simp only [hmsg, Option.map_some', Option.toList_some, List.singleton_append,
        List.map_cons]
      exact ih.cons₂ p

theorem map_fst_zip_sublist (l1 : List (List Char)) (l2 : List TaskOutcome) :
    ((l1.zip l2).map Prod.fst).Sublist l1 := by
  induction l1 generalizing l2 with
  | nil => simp
  | cons a l1 ih =>
    cases l2 with
    | nil => simp
    | cons b l2 =>
      simp only [List.zip_cons_cons, List.map_cons]
      exact (ih l2).cons₂ a

/-- C4: process_files returns (successCount, errorCount, errorList) where the
error list pairs each failed path with its error message, walking the gathered
(path, outcome) pairs in the original input order — asyncio.gather hands the
outcomes back aligned with the input paths regardless of completion order.
The failing paths of the error list form a sublist of the input paths (so they
appear in the input order of the failing files), the success count counts the
succeeding pairs, and the error count equals the length of the error list. -/
theorem c4_batch_error_ordering (paths : List (List Char))
    (outcomes : List TaskOutcome) :
    (process_files paths outcomes).2.2 = specFailEntries (paths.zip outcomes) ∧
    ((process_files paths outcomes).2.2.map Prod.fst).Sublist paths ∧
    (process_files paths outcomes).1 = specSuccessCount (paths.zip outcomes) ∧
    (process_files paths outcomes).2.1 =
      (process_files paths outcomes).2.2.length := by
  obtain ⟨h1, h2, h3⟩ := aggregateResults_spec (paths.zip outcomes)
  refine ⟨h1, ?_, h2, ?_⟩
  · show ((aggregateResults (paths.zip outcomes)).2.2.map Prod.fst).Sublist paths
    rw [h1]
    exact (specFailEntries_fst_sublist (paths.zip outcomes)).trans
      ((map_fst_zip_sublist paths outcomes).trans (List.Sublist.refl paths))
  · show (aggregateResults (paths.zip outcomes)).2.1 =
      (aggregateResults (paths.zip outcomes)).2.2.length
    rw [h1, h3]

theorem c1_integrity_restore_witness :
    process_file (fun _ => AttemptEvent.ret 0 [] "CHANGED".toList) true
        "doc".toList 0 =
      ⟨false, some .verificationFailed, [], "doc".toList, [], 1⟩ :=
  c1_integrity_restore (fun _ => AttemptEvent.ret 0 [] "CHANGED".toList) true
    "doc".toList [] "CHANGED".toList 0 (by decide) rfl (by decide)

theorem c2_repair_validate_witness :
    validate_tags (cleanup_invalid_tags
        ("```\n".toList ++ joinNl (List.replicate 25 "x".toList))
        ["tag".toList]) =
      (["tag".toList], []) :=
  c2_repair_validate ("```\n".toList ++ joinNl (List.replicate 25 "x".toList))
    ["tag".toList] (by decide) (by decide) (by decide) (by decide)

theorem c3_retry_policy_witness :
    process_file (fun _ => AttemptEvent.timeout "x".toList) true "d".toList 0 =
      ⟨false, some (.timeoutAfter 3), [], "x".toList, [2, 2], 3⟩ ∧
    process_file (fun _ => AttemptEvent.timeout "[[t]]".toList) false "d".toList 0 =
      ⟨true, none, (check_already_tagged "[[t]]".toList).2, "[[t]]".toList, [2], 1⟩ ∧
    process_file (fun _ => AttemptEvent.exc true "boom".toList "d2".toList) true
        "d".toList 0 =
      ⟨false, some (.errorAfterRetry "boom".toList), [], "d2".toList, [1],
        (if true then 1 else 0) + (if true then 1 else 0)⟩ :=
  ⟨c3_retry_policy.1 (fun _ => AttemptEvent.timeout "x".toList) true "d".toList
      "x".toList "x".toList "x".toList (by decide) (by decide) (by decide)
      rfl rfl rfl,
   c3_retry_policy.2.1 (fun _ => AttemptEvent.timeout "[[t]]".toList) "d".toList
      "[[t]]".toList (by decide) (by decide) rfl,
   c3_retry_policy.2.2 (fun _ => AttemptEvent.exc true "boom".toList "d2".toList)
      true "d".toList "d2".toList "d2".toList "boom".toList "boom".toList
      true true (by decide) (by decide) rfl rfl⟩

theorem c5_idempotent_short_circuit_witness :
    process_file (fun _ => AttemptEvent.timeout []) false "[[x]]".toList 0 =
      ⟨true, none, (check_already_tagged "[[x]]".toList).2, "[[x]]".toList, [], 0⟩ ∧
    process_file (fun _ => AttemptEvent.timeout []) false
        (process_file (fun _ => AttemptEvent.timeout []) false "[[x]]".toList 0).file
        0 =
      process_file (fun _ => AttemptEvent.timeout []) false "[[x]]".toList 0 :=
  c5_idempotent_short_circuit (fun _ => AttemptEvent.timeout [])
    (fun _ => AttemptEvent.timeout []) "[[x]]".toList 0 0 (by decide)

theorem c6_validator_classification_witness :
    "hidden".toList ∉ (validate_tags "x\n```\n[[hidden]]\n```\n[[good]]".toList).1 ∧
    "hidden".toList ∉ (validate_tags "x\n```\n[[hidden]]\n```\n[[good]]".toList).2 :=
  (c6_validator_classification "x\n```\n[[hidden]]\n```\n[[good]]".toList).2.2
    "hidden".toList (by decide) (by decide)

theorem c7_cleanup_behavior_witness :
    cleanup_invalid_tags "doc".toList ["a".toList] =
      rstripW (removeTagsWS "doc".toList) ++ '\n' :: '\n' ::
        joinNl (["a".toList].map wrapTag) ∧
    removeTagsWS ("pre".toList ++ (wrapTag "a".toList ++ (" \n".toList ++ []))) =
      "pre".toList ++ removeTagsWS [] :=
  ⟨(c7_cleanup_behavior "doc".toList ["a".toList] [] [] [] []).1 (by decide),
   (c7_cleanup_behavior "doc".toList ["a".toList] "pre".toList "a".toList
      " \n".toList []).2.2 (by decide) (by decide) (by decide) (by decide)
      (by intro c hc; simp at hc)⟩

theorem c8_amended_witness :
    verify_content_unchanged ("a".toList ++ '\n' :: "b".toList)
      ("a".toList ++ '\n' :: '\n' :: "b".toList) = false :=
  c8_amended_mid_whitespace_flagged "a".toList "b".toList (by decide) (by decide)
    (by decide) (by decide)

theorem c9_windowing_witness :
    validate_tags ("[[early]]".toList ++ '\n' ::
        joinNl (List.replicate 20 "x".toList)) =
      validate_tags (joinNl (List.replicate 20 "x".toList)) ∧
    verify_content_unchanged ("doc".toList ++ wrapTag "tag".toList ++ "end".toList)
      ("doc".toList ++ "end".toList) = true :=
  c9_windowing_vs_whole_document "[[early]]".toList
    (joinNl (List.replicate 20 "x".toList)) "doc".toList "end".toList "tag".toList
    (by decide) (by decide) (by decide) (by decide) (by decide)

theorem c10_shared_retry_counter_witness :
    process_file (fun _ => AttemptEvent.exc true "boom".toList "d0".toList) true
        "d".toList 1 =
      ⟨false, some (.errorAfterRetry "boom".toList), [], "d0".toList, [],
        if true then 1 else 0⟩ ∧
    process_file
        (fun n => if n = 0 then AttemptEvent.timeout "d0".toList
          else AttemptEvent.exc true "boom".toList "d1".toList) true "d".toList 0 =
      ⟨false, some (.errorAfterRetry "boom".toList), [], "d1".toList, [2],
        (if true then 1 else 0) + 1⟩ ∧
    process_file
        (fun n => if n = 0 then AttemptEvent.exc true "boom".toList "d0".toList
          else AttemptEvent.timeout "d1".toList) true "d".toList 0 =
      ⟨false, some (.timeoutAfter 3), [], "d1".toList, [1, 2],
        2 + (if true then 1 else 0)⟩ :=
  ⟨c10_shared_retry_counter.1 (fun _ => AttemptEvent.exc true "boom".toList
      "d0".toList) true "d".toList "d0".toList "boom".toList true 1 (by omega)
      (by decide) rfl,
   c10_shared_retry_counter.2.1
      (fun n => if n = 0 then AttemptEvent.timeout "d0".toList
        else AttemptEvent.exc true "boom".toList "d1".toList) true "d".toList
      "d0".toList "d1".toList "boom".toList true (by decide) (by decide) rfl rfl,
   c10_shared_retry_counter.2.2
      (fun n => if n = 0 then AttemptEvent.exc true "boom".toList "d0".toList
        else AttemptEvent.timeout "d1".toList) true "d".toList "d0".toList
      "d1".toList "d1".toList "boom".toList true (by decide) (by decide) (by decide)
      rfl rfl rfl⟩
